import Mathlib

/-!
Verification of the kyaml `kio` / `yaml` core (byte-stream reader, package
read-writer, declarative filter registry, scalar filters) against its
natural-language specification.

The Go sources under `kyaml/kio/byteio_reader.go`, `kyaml/kio/pkgio_reader.go`,
`kyaml/yaml/filters.go` and `kyaml/yaml/kfns.go` are embedded shallowly:

* `yaml.Node` trees become the inductive `YNode`; in-place mutation becomes
  functional update (state is threaded explicitly);
* Go maps `map[string]string` become association lists with insert-or-replace
  semantics (`mapInsert` / `mapLookup`);
* the external YAML decoder (`yaml.NewDecoder` / `Decode`) is abstracted by
  `DecodeResult`: each split segment either signals end of input, a decode
  error, an explicit null document, or a decoded node;
* fallible Go code returning `(T, error)` becomes `Except String T`, and code
  that mutates the filesystem threads an explicit `Fs` state.
-/

set_option autoImplicit false

namespace KyamlSpec

/-- Shallow embedding of `gopkg.in/yaml.v3` node trees as used by kyaml's
RNode: a node is a scalar, a mapping (ordered fields), or a sequence. -/
inductive YNode where
  | scalar (value : String)
  | mapping (fields : List (String × YNode))
  | sequence (elems : List YNode)
  deriving Repr

/-- Field lookup on a mapping's ordered field list (first occurrence wins,
mirroring go-yaml mapping content scanning). -/
def lookupField : List (String × YNode) → String → Option YNode
  | [], _ => none
  | (k, v) :: rest, name => if k = name then some v else lookupField rest name

/-- `RNode.Field`: returns the field value for a mapping node, `none` for a
missing field or a non-mapping node (kyaml `Field` never errors). -/
def YNode.field (n : YNode) (name : String) : Option YNode :=
  match n with
  | .mapping fields => lookupField fields name
  | _ => none

/-- Set-or-append a field in a mapping's ordered field list: an existing key
is replaced in place, a new key is appended at the end (kyaml `FieldSetter`). -/
def setFieldIn : List (String × YNode) → String → YNode → List (String × YNode)
  | [], name, v => [(name, v)]
  | (k, w) :: rest, name, v =>
      if k = name then (name, v) :: rest else (k, w) :: setFieldIn rest name v

/-- `meta.Kind` as read by `GetMeta`: the scalar value of the top-level
`kind` field, or `""` when absent or not a scalar. -/
def YNode.getKind (n : YNode) : String :=
  match n.field "kind" with
  | some (.scalar v) => v
  | _ => ""

/-- `meta.ApiVersion` as read by `GetMeta`. -/
def YNode.getApiVersion (n : YNode) : String :=
  match n.field "apiVersion" with
  | some (.scalar v) => v
  | _ => ""

/-- go-yaml `Node.Content` as consumed by the envelope unwrap loop: sequence
elements in order; a mapping's content alternates key scalars and values; a
scalar has no content. -/
def YNode.contentElems (n : YNode) : List YNode :=
  match n with
  | .sequence es => es
  | .mapping fields => fields.flatMap (fun kv => [YNode.scalar kv.1, kv.2])
  | .scalar _ => []

/-- Modelled from the spec: `PathGetter` with create mode, composed with
`FieldSetter`, as wired by `yaml.SetAnnotation` in `kfns.go` (lines 33-41):
navigate `metadata.annotations`, creating missing intermediate mapping nodes;
a non-mapping node in the way makes the path getter yield `nil`, so the pipe
short-circuits without error and the tree is unchanged. Returns `some` of the
updated tree, or `none` when the path is blocked. -/
def setAnnot (key value : String) (n : YNode) : Option YNode :=
  match n with
  | .mapping fields =>
    match lookupField fields "metadata" with
    | none =>
        some (.mapping (setFieldIn fields "metadata"
          (.mapping [("annotations", .mapping [(key, .scalar value)])])))
    | some (.mapping mfields) =>
        match lookupField mfields "annotations" with
        | none =>
            some (.mapping (setFieldIn fields "metadata"
              (.mapping (setFieldIn mfields "annotations"
                (.mapping [(key, .scalar value)])))))
        | some (.mapping afields) =>
            some (.mapping (setFieldIn fields "metadata"
              (.mapping (setFieldIn mfields "annotations"
                (.mapping (setFieldIn afields key (.scalar value)))))))
        | some _ => none
    | some _ => none
  | _ => none

/-- The effect on the tree of `n.Pipe(yaml.SetAnnotation(k, v))` in
`ByteReader.decode`: the mutation when the path is reachable, the unchanged
tree when the path getter yields `nil` (pipe short-circuit, no error). -/
def applyAnnot (n : YNode) (key value : String) : YNode :=
  (setAnnot key value n).getD n

/-- Read an annotation back: the scalar value at
`metadata.annotations.<key>`, mirroring `yaml.GetAnnotation`. -/
def getAnnot (key : String) (n : YNode) : Option String :=
  match n.field "metadata" with
  | some md =>
    match md.field "annotations" with
    | some an =>
      match an.field key with
      | some (.scalar v) => some v
      | _ => none
    | _ => none
  | _ => none

/-- A node on which `SetAnnotation` cannot be blocked: a mapping whose
`metadata` field, when present, is a mapping whose `annotations` field, when
present, is itself a mapping. -/
def annotatable (n : YNode) : Bool :=
  match n with
  | .mapping fields =>
    match lookupField fields "metadata" with
    | none => true
    | some (.mapping mfields) =>
      match lookupField mfields "annotations" with
      | none => true
      | some (.mapping _) => true
      | some _ => false
    | some _ => false
  | _ => false

@[simp] theorem lookupField_setFieldIn (fields : List (String × YNode))
    (name f : String) (v : YNode) :
    lookupField (setFieldIn fields name v) f =
      if f = name then some v else lookupField fields f := by
  induction fields with
  | nil =>
      simp only [setFieldIn, lookupField]
      by_cases h : name = f
      · subst h; simp
      · simp [h, Ne.symm h]
  | cons kv rest ih =>
      obtain ⟨k, w⟩ := kv
      simp only [setFieldIn]
      by_cases hk : k = name
      · subst hk
        simp only [if_pos rfl, lookupField]
        by_cases hf : k = f
        · subst hf; simp
        · simp [hf, Ne.symm hf]
      · simp only [if_neg hk, lookupField]
        by_cases hf : k = f
        · subst hf
          have hfn : ¬ k = name := hk
          simp [hfn, Ne.symm hfn]
        · simp [hf, ih]

theorem getAnnot_setAnnot (n n' : YNode) (key value : String)
    (h : setAnnot key value n = some n') :
    getAnnot key n' = some value := by
  cases n with
  | scalar v => simp [setAnnot] at h
  | sequence es => simp [setAnnot] at h
  | mapping fields =>
    cases hmd : lookupField fields "metadata" with
    | none =>
        simp [setAnnot, hmd] at h
        subst h
        simp [getAnnot, YNode.field, hmd, lookupField]
    | some md =>
      cases md with
      | scalar v => simp [setAnnot, hmd] at h
      | sequence es => simp [setAnnot, hmd] at h
      | mapping mfields =>
        cases han : lookupField mfields "annotations" with
        | none =>
            simp [setAnnot, hmd, han] at h
            subst h
            simp [getAnnot, YNode.field, han, lookupField]
        | some an =>
          cases an with
          | scalar v => simp [setAnnot, hmd, han] at h
          | sequence es => simp [setAnnot, hmd, han] at h
          | mapping afields =>
            simp [setAnnot, hmd, han] at h
            subst h
            simp [getAnnot, YNode.field, han]

theorem setAnnot_of_annotatable (n : YNode) (key value : String)
    (h : annotatable n = true) : ∃ n', setAnnot key value n = some n' := by
  cases n with
  | scalar v => simp [annotatable] at h
  | sequence es => simp [annotatable] at h
  | mapping fields =>
    cases hmd : lookupField fields "metadata" with
    | none =>
        simp only [setAnnot, hmd]
        exact ⟨_, rfl⟩
    | some md =>
      cases md with
      | scalar v => simp [annotatable, hmd] at h
      | sequence es => simp [annotatable, hmd] at h
      | mapping mfields =>
        cases han : lookupField mfields "annotations" with
        | none =>
            simp only [setAnnot, hmd, han]
            exact ⟨_, rfl⟩
        | some an =>
          cases an with
          | scalar v => simp [annotatable, hmd, han] at h
          | sequence es => simp [annotatable, hmd, han] at h
          | mapping afields =>
              simp only [setAnnot, hmd, han]
              exact ⟨_, rfl⟩

theorem getAnnot_setAnnot_ne (n n' : YNode) (k key value : String)
    (h : setAnnot key value n = some n') (hne : k ≠ key) :
    getAnnot k n' = getAnnot k n := by
  cases n with
  | scalar v => simp [setAnnot] at h
  | sequence es => simp [setAnnot] at h
  | mapping fields =>
    cases hmd : lookupField fields "metadata" with
    | none =>
        simp [setAnnot, hmd] at h
        subst h
        simp [getAnnot, YNode.field, hmd, lookupField, Ne.symm hne]
    | some md =>
      cases md with
      | scalar v => simp [setAnnot, hmd] at h
      | sequence es => simp [setAnnot, hmd] at h
      | mapping mfields =>
        cases han : lookupField mfields "annotations" with
        | none =>
            simp [setAnnot, hmd, han] at h
            subst h
            simp [getAnnot, YNode.field, hmd, han, lookupField, Ne.symm hne]
        | some an =>
          cases an with
          | scalar v => simp [setAnnot, hmd, han] at h
          | sequence es => simp [setAnnot, hmd, han] at h
          | mapping afields =>
            simp [setAnnot, hmd, han] at h
            subst h
            simp [getAnnot, YNode.field, hmd, han, hne, Ne.symm hne]

theorem annotatable_setAnnot (n n' : YNode) (key value : String)
    (h : setAnnot key value n = some n') : annotatable n' = true := by
  cases n with
  | scalar v => simp [setAnnot] at h
  | sequence es => simp [setAnnot] at h
  | mapping fields =>
    cases hmd : lookupField fields "metadata" with
    | none =>
        simp [setAnnot, hmd] at h
        subst h
        simp [annotatable, lookupField]
    | some md =>
      cases md with
      | scalar v => simp [setAnnot, hmd] at h
      | sequence es => simp [setAnnot, hmd] at h
      | mapping mfields =>
        cases han : lookupField mfields "annotations" with
        | none =>
            simp [setAnnot, hmd, han] at h
            subst h
            simp [annotatable, lookupField]
        | some an =>
          cases an with
          | scalar v => simp [setAnnot, hmd, han] at h
          | sequence es => simp [setAnnot, hmd, han] at h
          | mapping afields =>
            simp [setAnnot, hmd, han] at h
            subst h
            simp [annotatable]

theorem field_setAnnot_ne (n n' : YNode) (key value f : String)
    (h : setAnnot key value n = some n') (hf : f ≠ "metadata") :
    n'.field f = n.field f := by
  cases n with
  | scalar v => simp [setAnnot] at h
  | sequence es => simp [setAnnot] at h
  | mapping fields =>
    cases hmd : lookupField fields "metadata" with
    | none =>
        simp [setAnnot, hmd] at h
        subst h
        simp [YNode.field, hf]
    | some md =>
      cases md with
      | scalar v => simp [setAnnot, hmd] at h
      | sequence es => simp [setAnnot, hmd] at h
      | mapping mfields =>
        cases han : lookupField mfields "annotations" with
        | none =>
            simp [setAnnot, hmd, han] at h
            subst h
            simp [YNode.field, hf]
        | some an =>
          cases an with
          | scalar v => simp [setAnnot, hmd, han] at h
          | sequence es => simp [setAnnot, hmd, han] at h
          | mapping afields =>
            simp [setAnnot, hmd, han] at h
            subst h
            simp [YNode.field, hf]

theorem getAnnot_applyAnnot_self (n : YNode) (key value : String)
    (h : annotatable n = true) :
    getAnnot key (applyAnnot n key value) = some value := by
  obtain ⟨n', hn'⟩ := setAnnot_of_annotatable n key value h
  rw [applyAnnot, hn']
  exact getAnnot_setAnnot n n' key value hn'

theorem getAnnot_applyAnnot_ne (n : YNode) (k key value : String)
    (hne : k ≠ key) :
    getAnnot k (applyAnnot n key value) = getAnnot k n := by
  cases hs : setAnnot key value n with
  | none => simp [applyAnnot, hs]
  | some n' =>
      rw [applyAnnot, hs]
      exact getAnnot_setAnnot_ne n n' k key value hs hne

theorem annotatable_applyAnnot (n : YNode) (key value : String)
    (h : annotatable n = true) :
    annotatable (applyAnnot n key value) = true := by
  cases hs : setAnnot key value n with
  | none => rw [applyAnnot, hs]; exact h
  | some n' =>
      rw [applyAnnot, hs]
      exact annotatable_setAnnot n n' key value hs

theorem field_applyAnnot_ne (n : YNode) (key value f : String)
    (hf : f ≠ "metadata") :
    (applyAnnot n key value).field f = n.field f := by
  cases hs : setAnnot key value n with
  | none => simp [applyAnnot, hs]
  | some n' =>
      rw [applyAnnot, hs]
      exact field_setAnnot_ne n n' key value f hs hf

/-! ### Go string maps as association lists -/

/-- Go `map[string]string` assignment `m[k] = v`: replace the binding if the
key is present, otherwise add it. -/
def mapInsert : List (String × String) → String → String → List (String × String)
  | [], k, v => [(k, v)]
  | (k', v') :: rest, k, v =>
      if k' = k then (k, v) :: rest else (k', v') :: mapInsert rest k v

/-- Go map indexing `m[k]` (as `Option`). -/
def mapLookup : List (String × String) → String → Option String
  | [], _ => none
  | (k', v') :: rest, k => if k' = k then some v' else mapLookup rest k

/-- Go map indexing with the zero value for a missing key. -/
def mapLookupD (m : List (String × String)) (k : String) : String :=
  (mapLookup m k).getD ""

@[simp] theorem mapLookup_mapInsert_self (m : List (String × String))
    (k v : String) : mapLookup (mapInsert m k v) k = some v := by
  induction m with
  | nil => simp [mapInsert, mapLookup]
  | cons kv rest ih =>
      obtain ⟨k', v'⟩ := kv
      by_cases h : k' = k
      · subst h; simp [mapInsert, mapLookup]
      · simp [mapInsert, mapLookup, h, ih]

theorem mapLookup_mapInsert_ne (m : List (String × String))
    (k v k' : String) (hne : k' ≠ k) :
    mapLookup (mapInsert m k v) k' = mapLookup m k' := by
  induction m with
  | nil => simp [mapInsert, mapLookup, Ne.symm hne]
  | cons kv rest ih =>
      obtain ⟨k₀, v₀⟩ := kv
      by_cases h : k₀ = k
      · subst h
        simp [mapInsert, mapLookup, Ne.symm hne]
      · simp [mapInsert, mapLookup, h, ih]

theorem mem_keys_mapInsert (m : List (String × String)) (k v : String) :
    k ∈ (mapInsert m k v).map Prod.fst := by
  induction m with
  | nil => simp [mapInsert]
  | cons kv rest ih =>
      obtain ⟨k', v'⟩ := kv
      by_cases h : k' = k
      · subst h; simp [mapInsert]
      · simp only [mapInsert, if_neg h, List.map_cons, List.mem_cons]
        exact Or.inr ih

/-! ### `sort.Strings` on the key set -/

/-- Lexicographic (byte-wise, as Go string comparison) order on strings,
as an executable Boolean on the character lists. -/
def strLtB : List Char → List Char → Bool
  | [], [] => false
  | [], _ :: _ => true
  | _ :: _, [] => false
  | a :: as, b :: bs => if a = b then strLtB as bs else decide (a < b)

/-- Insert a string into a sorted list (insertion sort step). -/
def insertSorted (s : String) : List String → List String
  | [] => [s]
  | t :: rest =>
      if strLtB s.data t.data then s :: t :: rest else t :: insertSorted s rest

/-- `sort.Strings`: the keys of the annotation map sorted lexicographically
(`ByteReader.decode` lines 186-190 collects the keys and sorts them so
annotation application order is deterministic). -/
def sortStrings (l : List String) : List String := l.foldr insertSorted []

theorem mem_insertSorted (x s : String) (l : List String) :
    x ∈ insertSorted s l ↔ x = s ∨ x ∈ l := by
  induction l with
  | nil => simp [insertSorted]
  | cons t rest ih =>
      by_cases h : strLtB s.data t.data = true
      · simp [insertSorted, h]
      · simp [insertSorted, h, ih]
        tauto

theorem mem_sortStrings (x : String) (l : List String) :
    x ∈ sortStrings l ↔ x ∈ l := by
  induction l with
  | nil => simp [sortStrings]
  | cons t rest ih =>
      simp only [sortStrings, List.foldr] at *
      rw [mem_insertSorted]
      simp [ih]

/-! ### Applying the collected annotations in sorted key order -/

/-- The annotation-application loop of `ByteReader.decode` (lines 191-196):
pipe `SetAnnotation(k, m[k])` for each key `k` of the given key list. -/
def applyAnnotList (n : YNode) (ks : List String)
    (m : List (String × String)) : YNode :=
  ks.foldl (fun acc k => applyAnnot acc k (mapLookupD m k)) n

@[simp] theorem applyAnnotList_nil (n : YNode) (m : List (String × String)) :
    applyAnnotList n [] m = n := rfl

theorem applyAnnotList_cons (n : YNode) (k : String) (ks : List String)
    (m : List (String × String)) :
    applyAnnotList n (k :: ks) m =
      applyAnnotList (applyAnnot n k (mapLookupD m k)) ks m := rfl

theorem annotatable_applyAnnotList (n : YNode) (ks : List String)
    (m : List (String × String)) (h : annotatable n = true) :
    annotatable (applyAnnotList n ks m) = true := by
  induction ks generalizing n with
  | nil => simpa using h
  | cons k rest ih =>
      rw [applyAnnotList_cons]
      exact ih _ (annotatable_applyAnnot n k (mapLookupD m k) h)

theorem getAnnot_applyAnnotList_notMem (n : YNode) (k : String)
    (ks : List String) (m : List (String × String)) (hk : k ∉ ks) :
    getAnnot k (applyAnnotList n ks m) = getAnnot k n := by
  induction ks generalizing n with
  | nil => rfl
  | cons k' rest ih =>
      rw [applyAnnotList_cons]
      have hne : k ≠ k' := by
        intro h; exact hk (h ▸ List.mem_cons_self k' rest)
      rw [ih _ (fun h => hk (List.mem_cons_of_mem k' h)),
        getAnnot_applyAnnot_ne n k k' (mapLookupD m k') hne]

theorem getAnnot_applyAnnotList_mem (n : YNode) (k : String)
    (ks : List String) (m : List (String × String))
    (h : annotatable n = true) (hk : k ∈ ks) :
    getAnnot k (applyAnnotList n ks m) = some (mapLookupD m k) := by
  induction ks generalizing n with
  | nil => simp at hk
  | cons k' rest ih =>
      rw [applyAnnotList_cons]
      by_cases hmem : k ∈ rest
      · exact ih _ (annotatable_applyAnnot n k' (mapLookupD m k') h) hmem
      · have hk' : k = k' := by
          rcases List.mem_cons.mp hk with h1 | h1
          · exact h1
          · exact absurd h1 hmem
        subst hk'
        rw [getAnnot_applyAnnotList_notMem _ k rest m hmem]
        exact getAnnot_applyAnnot_self n k (mapLookupD m k) h

theorem field_applyAnnotList_ne (n : YNode) (ks : List String)
    (m : List (String × String)) (f : String) (hf : f ≠ "metadata") :
    (applyAnnotList n ks m).field f = n.field f := by
  induction ks generalizing n with
  | nil => rfl
  | cons k rest ih =>
      rw [applyAnnotList_cons, ih, field_applyAnnot_ne n k (mapLookupD m k) f hf]

/-- The full stamping step of `ByteReader.decode`: sort the keys of the
accumulated `SetAnnotations` map and apply each as an annotation. -/
def stampAnnots (n : YNode) (m : List (String × String)) : YNode :=
  applyAnnotList n (sortStrings (m.map Prod.fst)) m

theorem getAnnot_stampAnnots_mem (n : YNode) (m : List (String × String))
    (k : String) (h : annotatable n = true) (hk : k ∈ m.map Prod.fst) :
    getAnnot k (stampAnnots n m) = some (mapLookupD m k) :=
  getAnnot_applyAnnotList_mem n k _ m h ((mem_sortStrings k _).mpr hk)

theorem annotatable_stampAnnots (n : YNode) (m : List (String × String))
    (h : annotatable n = true) : annotatable (stampAnnots n m) = true :=
  annotatable_applyAnnotList n _ m h

theorem field_stampAnnots_ne (n : YNode) (m : List (String × String))
    (f : String) (hf : f ≠ "metadata") :
    (stampAnnots n m).field f = n.field f :=
  field_applyAnnotList_ne n _ m f hf

/-! ### ByteReader (`kyaml/kio/byteio_reader.go`) -/

/-- `ResourceListKind` constant (byteio_reader.go line 18). -/
def ResourceListKind : String := "ResourceList"

/-- `ResourceListApiVersion` constant (byteio_reader.go line 19). -/
def ResourceListApiVersion : String := "kyaml.kustomize.dev/v1alpha1"

/-- Modelled from the spec: `kioutil.IndexAnnotation`, the reserved index
provenance key (the `kioutil` package is outside the embedded sources; the
literal appears in the `ByteReader` doc comment of byteio_reader.go). -/
def indexAnnotKey : String := "kyaml.kustomize.dev/kio/index"

/-- Modelled from the spec: `kioutil.PathAnnotation`, the reserved path
provenance key. -/
def pathAnnotKey : String := "kyaml.kustomize.dev/kio/path"

/-- Modelled from the spec: `kioutil.PackageAnnotation`, the reserved
package provenance key. -/
def packageAnnotKey : String := "kyaml.kustomize.dev/kio/package"

/-- Abstraction of the external YAML decoder applied to one split segment:
it signals end of input (`io.EOF`), fails, produces an explicit null
document (`isEmptyDocument`, byteio_reader.go lines 156-160), or produces a
document node. -/
inductive DecodeResult where
  | eof
  | err (e : String)
  | null
  | doc (n : YNode)

/-- The segments `ByteReader.Read` silently skips: an end-of-input segment
and an explicit null document. -/
def DecodeResult.skippable : DecodeResult → Bool
  | .eof => true
  | .null => true
  | _ => false

/-- The mutable state of a `ByteReader` (byteio_reader.go lines 73-89);
`Reader` itself is replaced by the explicit segment list / decoder. -/
structure ByteReader where
  omitReaderAnnotations : Bool
  setAnnotations : Option (List (String × String))
  functionConfig : Option YNode
  wrappingApiVersion : String
  wrappingKind : String

/-- Result of `ByteReader.decode` (byteio_reader.go lines 162-198): `io.EOF`
is passed through for the caller to skip, errors abort, otherwise an
optional node (nil for an empty document) plus the updated reader state. -/
inductive DecodeOutcome where
  | eofO
  | errO (e : String)
  | okO (node : Option YNode) (r : ByteReader)

/-- `ByteReader.decode` (byteio_reader.go lines 162-198): an empty document
yields no node before any annotation work; otherwise the `SetAnnotations`
map is allocated when nil, the index annotation is written into it unless
suppressed, and all entries are applied to the node in sorted key order. -/
def ByteReader.decode (r : ByteReader) (index : Nat) (res : DecodeResult) :
    DecodeOutcome :=
  match res with
  | .eof => .eofO
  | .err e => .errO e
  | .null => .okO none r
  | .doc n =>
      let sa0 := r.setAnnotations.getD []
      let sa := if r.omitReaderAnnotations then sa0
                else mapInsert sa0 indexAnnotKey (toString index)
      .okO (some (stampAnnots n sa)) { r with setAnnotations := some sa }

/-- The envelope test of `ByteReader.Read` (byteio_reader.go lines 125-126):
kind is the resource-list kind or `"List"`, and an `items` field exists. -/
def isEnvelopeDoc (n : YNode) : Bool :=
  (n.getKind == ResourceListKind || n.getKind == "List")
    && (n.field "items").isSome

/-- The per-segment loop of `ByteReader.Read` (byteio_reader.go lines
105-152): skip EOF segments, abort on a decode error, skip null documents,
unwrap envelope documents into their items (recording the wrapping metadata
and not consuming an index slot), and append any other document, advancing
the index. -/
def ByteReader.readLoop (r : ByteReader) (index : Nat) :
    List DecodeResult → Except String (List YNode × ByteReader)
  | [] => .ok ([], r)
  | v :: rest =>
    match r.decode index v with
    | .eofO => r.readLoop index rest
    | .errO e => .error e
    | .okO none r' => r'.readLoop index rest
    | .okO (some node) r' =>
      if isEnvelopeDoc node then
        let r2 : ByteReader :=
          { r' with
            wrappingKind := node.getKind
            wrappingApiVersion := node.getApiVersion
            functionConfig :=
              match node.field "functionConfig" with
              | some fc => some fc
              | none => r'.functionConfig }
        match node.field "items" with
        | some its =>
          match r2.readLoop index rest with
          | .error e => .error e
          | .ok (out, rEnd) => .ok (its.contentElems ++ out, rEnd)
        | none => r2.readLoop index rest
      else
        match r'.readLoop (index + 1) rest with
        | .error e => .error e
        | .ok (out, rEnd) => .ok (node :: out, rEnd)

/-- `ByteReader.Read` on an already-split and decoded segment list: the
loop starts with index 0. -/
def ByteReader.read (r : ByteReader) (segs : List DecodeResult) :
    Except String (List YNode × ByteReader) :=
  r.readLoop 0 segs

/-- `ByteReader.Read` (byteio_reader.go lines 93-154): the whole input is
buffered, split on the literal separator line with `strings.Split(input,
"\n---\n")`, and each segment is handed to the decoder (abstracted by
`dec`), then processed by the loop. -/
def ByteReader.readString (r : ByteReader) (dec : String → DecodeResult)
    (s : String) : Except String (List YNode × ByteReader) :=
  r.read ((s.splitOn "\n---\n").map dec)

/-- The `SetAnnotations` map contents after one `decode` of a document:
allocated when nil, and extended with the index entry unless suppressed. -/
def decodeMap (r : ByteReader) (index : Nat) : List (String × String) :=
  if r.omitReaderAnnotations then r.setAnnotations.getD []
  else mapInsert (r.setAnnotations.getD []) indexAnnotKey (toString index)

theorem decode_doc (r : ByteReader) (index : Nat) (n : YNode) :
    r.decode index (DecodeResult.doc n) =
      .okO (some (stampAnnots n (decodeMap r index)))
        { r with setAnnotations := some (decodeMap r index) } := rfl

theorem getKind_stampAnnots (n : YNode) (m : List (String × String)) :
    (stampAnnots n m).getKind = n.getKind := by
  rw [YNode.getKind, YNode.getKind,
    field_stampAnnots_ne n m "kind" (by decide)]

theorem getApiVersion_stampAnnots (n : YNode) (m : List (String × String)) :
    (stampAnnots n m).getApiVersion = n.getApiVersion := by
  rw [YNode.getApiVersion, YNode.getApiVersion,
    field_stampAnnots_ne n m "apiVersion" (by decide)]

theorem isEnvelopeDoc_stampAnnots (n : YNode) (m : List (String × String)) :
    isEnvelopeDoc (stampAnnots n m) = isEnvelopeDoc n := by
  rw [isEnvelopeDoc, isEnvelopeDoc, getKind_stampAnnots,
    field_stampAnnots_ne n m "items" (by decide)]

theorem readLoop_filter_skippable (segs : List DecodeResult)
    (r : ByteReader) (index : Nat) :
    r.readLoop index segs =
      r.readLoop index (segs.filter (fun v => ! v.skippable)) := by
  induction segs generalizing r index with
  | nil => rfl
  | cons v rest ih =>
    cases v with
    | eof =>
        have hf : List.filter (fun v => ! v.skippable) (DecodeResult.eof :: rest)
            = List.filter (fun v => ! v.skippable) rest := rfl
        rw [hf, ByteReader.readLoop]
        exact ih r index
    | null =>
        have hf : List.filter (fun v => ! v.skippable) (DecodeResult.null :: rest)
            = List.filter (fun v => ! v.skippable) rest := rfl
        rw [hf, ByteReader.readLoop]
        exact ih r index
    | err e =>
        have hf : List.filter (fun v => ! v.skippable) (DecodeResult.err e :: rest)
            = DecodeResult.err e :: List.filter (fun v => ! v.skippable) rest := rfl
        rw [hf, ByteReader.readLoop, ByteReader.readLoop]
        rfl
    | doc n =>
        have hf : List.filter (fun v => ! v.skippable) (DecodeResult.doc n :: rest)
            = DecodeResult.doc n :: List.filter (fun v => ! v.skippable) rest := rfl
        rw [hf, ByteReader.readLoop, ByteReader.readLoop]
        cases hd : r.decode index (DecodeResult.doc n) with
        | eofO => exact ih r index
        | errO e => rfl
        | okO node r' =>
          cases node with
          | none => exact ih r' index
          | some nd =>
            by_cases he : isEnvelopeDoc nd = true
            · simp only [if_pos he]
              cases hits : nd.field "items" with
              | none => rw [ih]
              | some its => rw [ih]
            · simp only [if_neg he]
              rw [ih]

/-- A segment that contributes a directly-appended (genuine, non-envelope)
document to the output. -/
def segIsDirectDoc : DecodeResult → Bool
  | .doc n => ! isEnvelopeDoc n
  | _ => false

/-- The number of genuine (non-envelope) documents among the segments: the
running value of `index` in `ByteReader.Read`. -/
def directCount (segs : List DecodeResult) : Nat :=
  segs.countP segIsDirectDoc

/-- The `items` node of an envelope document. -/
def itemsOf (n : YNode) : YNode :=
  (n.field "items").getD (YNode.sequence [])

/-- How many output documents one segment contributes: an envelope document
contributes its items, a genuine document contributes itself, skipped
segments contribute nothing. -/
def outContrib : DecodeResult → Nat
  | .doc n => if isEnvelopeDoc n then (itemsOf n).contentElems.length else 1
  | _ => 0

/-- The output position at which the documents of the next segment start. -/
def outOffset (segs : List DecodeResult) : Nat :=
  (segs.map outContrib).sum

theorem readLoop_cons_eof (r : ByteReader) (index : Nat)
    (rest : List DecodeResult) :
    r.readLoop index (DecodeResult.eof :: rest) = r.readLoop index rest := rfl

theorem readLoop_cons_null (r : ByteReader) (index : Nat)
    (rest : List DecodeResult) :
    r.readLoop index (DecodeResult.null :: rest) = r.readLoop index rest := rfl

theorem readLoop_cons_err (r : ByteReader) (index : Nat) (e : String)
    (rest : List DecodeResult) :
    r.readLoop index (DecodeResult.err e :: rest) = .error e := rfl

theorem readLoop_cons_doc_direct (r : ByteReader) (index : Nat) (n : YNode)
    (rest : List DecodeResult)
    (h : isEnvelopeDoc (stampAnnots n (decodeMap r index)) = false) :
    r.readLoop index (DecodeResult.doc n :: rest) =
      match ({ r with setAnnotations := some (decodeMap r index)
               : ByteReader }).readLoop (index + 1) rest with
      | .error e => .error e
      | .ok (out, rEnd) =>
          .ok (stampAnnots n (decodeMap r index) :: out, rEnd) := by
  rw [ByteReader.readLoop, decode_doc]
  simp only [if_neg (by simp [h] : ¬ isEnvelopeDoc
    (stampAnnots n (decodeMap r index)) = true)]

/-- The reader state after processing an envelope document (the `r2` of the
envelope branch of the loop). -/
def envState (r : ByteReader) (index : Nat) (n : YNode) : ByteReader :=
  { omitReaderAnnotations := r.omitReaderAnnotations
    setAnnotations := some (decodeMap r index)
    functionConfig :=
      match (stampAnnots n (decodeMap r index)).field "functionConfig" with
      | some fc => some fc
      | none => r.functionConfig
    wrappingApiVersion := (stampAnnots n (decodeMap r index)).getApiVersion
    wrappingKind := (stampAnnots n (decodeMap r index)).getKind }

theorem readLoop_cons_doc_env (r : ByteReader) (index : Nat) (n its : YNode)
    (rest : List DecodeResult)
    (hits : n.field "items" = some its)
    (h : isEnvelopeDoc n = true) :
    r.readLoop index (DecodeResult.doc n :: rest) =
      match (envState r index n).readLoop index rest with
      | .error e => .error e
      | .ok (out, rEnd) => .ok (its.contentElems ++ out, rEnd) := by
  have hse : isEnvelopeDoc (stampAnnots n (decodeMap r index)) = true := by
    rw [isEnvelopeDoc_stampAnnots]; exact h
  have hsi : (stampAnnots n (decodeMap r index)).field "items" = some its := by
    rw [field_stampAnnots_ne n _ "items" (by decide)]; exact hits
  rw [ByteReader.readLoop, decode_doc]
  simp only [if_pos hse, hsi]
  rfl

theorem readLoop_direct_index (segs : List DecodeResult) (r : ByteReader)
    (index : Nat) (out : List YNode) (rEnd : ByteReader)
    (homit : r.omitReaderAnnotations = false)
    (hann : ∀ (q : Nat) (nq : YNode), segs[q]? = some (DecodeResult.doc nq) →
      annotatable nq = true)
    (hr : r.readLoop index segs = .ok (out, rEnd)) :
    ∀ (p : Nat) (np : YNode), segs[p]? = some (DecodeResult.doc np) →
      isEnvelopeDoc np = false →
      ∃ d, out[outOffset (segs.take p)]? = some d ∧
        getAnnot indexAnnotKey d =
          some (toString (index + directCount (segs.take p))) := by
  induction segs generalizing r index out rEnd with
  | nil =>
      intro p np hp
      simp at hp
  | cons v rest ih =>
    have hannR : ∀ (q' : Nat) (nq : YNode),
        rest[q']? = some (DecodeResult.doc nq) → annotatable nq = true := by
      intro q' nq hq'
      apply hann (q' + 1)
      rw [List.getElem?_cons_succ]
      exact hq'
    cases v with
    | eof =>
        rw [readLoop_cons_eof] at hr
        intro p np hp hpe
        cases p with
        | zero =>
            rw [List.getElem?_cons_zero] at hp
            injection hp with h1
            exact DecodeResult.noConfusion h1
        | succ q =>
            have hq : rest[q]? = some (DecodeResult.doc np) := by
              rw [List.getElem?_cons_succ] at hp
              exact hp
            obtain ⟨d, hd, hgd⟩ := ih r index out rEnd homit hannR hr q np hq hpe
            refine ⟨d, ?_, ?_⟩
            · simpa [outOffset, outContrib, List.take_succ_cons] using hd
            · simpa [directCount, List.take_succ_cons, List.countP_cons,
                segIsDirectDoc] using hgd
    | null =>
        rw [readLoop_cons_null] at hr
        intro p np hp hpe
        cases p with
        | zero =>
            rw [List.getElem?_cons_zero] at hp
            injection hp with h1
            exact DecodeResult.noConfusion h1
        | succ q =>
            have hq : rest[q]? = some (DecodeResult.doc np) := by
              rw [List.getElem?_cons_succ] at hp
              exact hp
            obtain ⟨d, hd, hgd⟩ := ih r index out rEnd homit hannR hr q np hq hpe
            refine ⟨d, ?_, ?_⟩
            · simpa [outOffset, outContrib, List.take_succ_cons] using hd
            · simpa [directCount, List.take_succ_cons, List.countP_cons,
                segIsDirectDoc] using hgd
    | err e =>
        rw [readLoop_cons_err] at hr
        exact Except.noConfusion hr
    | doc n0 =>
        have ha0 : annotatable n0 = true :=
          hann 0 n0 (by rw [List.getElem?_cons_zero])
        by_cases he : isEnvelopeDoc n0 = true
        · -- envelope head: contributes its items, no index slot
          have hitsS : (n0.field "items").isSome = true := by
            have he2 := he
            simp only [isEnvelopeDoc, Bool.and_eq_true] at he2
            exact he2.2
          obtain ⟨its, hits⟩ := Option.isSome_iff_exists.mp hitsS
          rw [readLoop_cons_doc_env r index n0 its rest hits he] at hr
          cases hrec : (envState r index n0).readLoop index rest with
          | error e => rw [hrec] at hr; exact Except.noConfusion hr
          | ok pr =>
            obtain ⟨out', rEnd'⟩ := pr
            rw [hrec] at hr
            have hout : out = its.contentElems ++ out' := by
              injection hr with h1
              exact (congrArg Prod.fst h1).symm
            intro p np hp hpe
            cases p with
            | zero =>
                rw [List.getElem?_cons_zero] at hp
                injection hp with h1
                have hnp : n0 = np := DecodeResult.doc.inj h1
                rw [← hnp, he] at hpe
                exact Bool.noConfusion hpe
            | succ q =>
                have hq : rest[q]? = some (DecodeResult.doc np) := by
                  rw [List.getElem?_cons_succ] at hp
                  exact hp
                have homit' : (envState r index n0).omitReaderAnnotations = false :=
                  homit
                obtain ⟨d, hd, hgd⟩ := ih (envState r index n0) index out' rEnd'
                  homit' hannR hrec q np hq hpe
                refine ⟨d, ?_, ?_⟩
                · rw [hout, List.take_succ_cons]
                  have hoff : outOffset (DecodeResult.doc n0 :: rest.take q) =
                      its.contentElems.length + outOffset (rest.take q) := by
                    simp [outOffset, outContrib, he, itemsOf, hits]
                  rw [hoff, List.getElem?_append_right (by omega)]
                  simpa [Nat.add_sub_cancel_left] using hd
                · rw [List.take_succ_cons]
                  have hdc : directCount (DecodeResult.doc n0 :: rest.take q) =
                      directCount (rest.take q) := by
                    simp [directCount, List.countP_cons, segIsDirectDoc, he]
                  rw [hdc]
                  exact hgd
        · -- genuine head: stamped with the current index, index advances
          have he' : isEnvelopeDoc n0 = false := by
            cases h : isEnvelopeDoc n0 with
            | false => rfl
            | true => exact absurd h he
          have hse : isEnvelopeDoc (stampAnnots n0 (decodeMap r index)) = false := by
            rw [isEnvelopeDoc_stampAnnots]; exact he'
          rw [readLoop_cons_doc_direct r index n0 rest hse] at hr
          cases hrec : ({ r with setAnnotations := some (decodeMap r index)
              : ByteReader }).readLoop (index + 1) rest with
          | error e => rw [hrec] at hr; exact Except.noConfusion hr
          | ok pr =>
            obtain ⟨out', rEnd'⟩ := pr
            rw [hrec] at hr
            have hout : out = stampAnnots n0 (decodeMap r index) :: out' := by
              injection hr with h1
              exact (congrArg Prod.fst h1).symm
            have hmap : decodeMap r index =
                mapInsert (r.setAnnotations.getD []) indexAnnotKey
                  (toString index) := by
              rw [decodeMap, homit]
              rfl
            intro p np hp hpe
            cases p with
            | zero =>
                refine ⟨stampAnnots n0 (decodeMap r index), ?_, ?_⟩
                · rw [hout]
                  have h0 : outOffset (List.take 0
                      (DecodeResult.doc n0 :: rest)) = 0 := rfl
                  rw [h0, List.getElem?_cons_zero]
                · rw [getAnnot_stampAnnots_mem n0 _ indexAnnotKey ha0
                    (by rw [hmap]; exact mem_keys_mapInsert _ _ _)]
                  rw [hmap, mapLookupD, mapLookup_mapInsert_self]
                  simp [directCount]
            | succ q =>
                have hq : rest[q]? = some (DecodeResult.doc np) := by
                  rw [List.getElem?_cons_succ] at hp
                  exact hp
                obtain ⟨d, hd, hgd⟩ := ih
                  ({ r with setAnnotations := some (decodeMap r index) })
                  (index + 1) out' rEnd' homit hannR hrec q np hq hpe
                refine ⟨d, ?_, ?_⟩
                · rw [hout, List.take_succ_cons]
                  have hoff : outOffset (DecodeResult.doc n0 :: rest.take q) =
                      1 + outOffset (rest.take q) := by
                    simp [outOffset, outContrib, he']
                  rw [hoff, Nat.add_comm 1 (outOffset (rest.take q))]
                  simpa using hd
                · rw [List.take_succ_cons]
                  have hdc : directCount (DecodeResult.doc n0 :: rest.take q) =
                      directCount (rest.take q) + 1 := by
                    simp [directCount, List.countP_cons, segIsDirectDoc, he']
                  rw [hdc]
                  have harith : index + 1 + directCount (rest.take q) =
                      index + (directCount (rest.take q) + 1) := by omega
                  rw [← harith]
                  exact hgd

/-- C1: with reader annotations enabled, every genuine (non-envelope)
document that `ByteReader.Read` appends directly to the output is stamped
with an index annotation equal to the running count of genuine documents
seen so far, in read order — a dense, zero-based, strictly increasing
sequence; skipped (EOF/null) segments and envelope documents never consume
an index slot. -/
theorem byteReader_read_assigns_dense_indices (segs : List DecodeResult)
    (r : ByteReader) (out : List YNode) (rEnd : ByteReader)
    (homit : r.omitReaderAnnotations = false)
    (hann : ∀ (q : Nat) (nq : YNode), segs[q]? = some (DecodeResult.doc nq) →
      annotatable nq = true)
    (hr : r.read segs = .ok (out, rEnd)) :
    ∀ (p : Nat) (np : YNode), segs[p]? = some (DecodeResult.doc np) →
      isEnvelopeDoc np = false →
      ∃ d, out[outOffset (segs.take p)]? = some d ∧
        getAnnot indexAnnotKey d =
          some (toString (directCount (segs.take p))) := by
  intro p np hp hpe
  have h := readLoop_direct_index segs r 0 out rEnd homit hann hr p np hp hpe
  simpa using h

/-- A genuine sample document for concrete evaluation. -/
def docA : YNode := YNode.mapping [("a", YNode.scalar "1")]

/-- A `List` envelope sample document with one item. -/
def docEnv : YNode := YNode.mapping
  [("kind", YNode.scalar "List"),
   ("items", YNode.sequence [YNode.mapping [("c", YNode.scalar "3")]])]

/-- A second genuine sample document. -/
def docB : YNode := YNode.mapping [("b", YNode.scalar "2")]

/-- A sample stream: genuine doc, EOF segment, envelope, null segment,
genuine doc. -/
def segsSample : List DecodeResult :=
  [DecodeResult.doc docA, DecodeResult.eof, DecodeResult.doc docEnv,
   DecodeResult.null, DecodeResult.doc docB]

/-- A fresh reader with annotations enabled and no caller annotations. -/
def readerInit : ByteReader := ⟨false, none, none, "", ""⟩

/-- Witness for C1: on the sample stream the second genuine document (after
an interleaved EOF segment, envelope and null segment) carries the index
annotation for running count 1. -/
theorem byteReader_read_assigns_dense_indices_witness :
    ∃ out rEnd, readerInit.read segsSample = .ok (out, rEnd) ∧
      ∃ d, out[outOffset (segsSample.take 4)]? = some d ∧
        getAnnot indexAnnotKey d =
          some (toString (directCount (segsSample.take 4))) := by
  refine ⟨_, _, rfl, ?_⟩
  refine byteReader_read_assigns_dense_indices segsSample readerInit _ _
    rfl ?_ rfl 4 docB rfl rfl
  intro q nq hq
  rcases q with _ | _ | _ | _ | _ | q
  · injection hq with h1
    rw [← DecodeResult.doc.inj h1]
    rfl
  · injection hq with h1
    exact DecodeResult.noConfusion h1
  · injection hq with h1
    rw [← DecodeResult.doc.inj h1]
    rfl
  · injection hq with h1
    exact DecodeResult.noConfusion h1
  · injection hq with h1
    rw [← DecodeResult.doc.inj h1]
    rfl
  · exact Option.noConfusion hq

/-- The index value `decode` last wrote into the annotations map: follows
the loop's index bookkeeping (envelope documents are stamped with the
current index but do not advance it). -/
def lastDocIndex : List DecodeResult → Nat → Option Nat
  | [], _ => none
  | v :: rest, index =>
    match v with
    | .doc n =>
        match lastDocIndex rest (if isEnvelopeDoc n then index else index + 1) with
        | some k => some k
        | none => some index
    | _ => lastDocIndex rest index

theorem readLoop_setAnnots_of_no_doc (segs : List DecodeResult)
    (r : ByteReader) (index : Nat) (out : List YNode) (rEnd : ByteReader)
    (hnone : lastDocIndex segs index = none)
    (hr : r.readLoop index segs = .ok (out, rEnd)) :
    rEnd.setAnnotations = r.setAnnotations := by
  induction segs generalizing r index out rEnd with
  | nil =>
      rw [ByteReader.readLoop] at hr
      injection hr with h1
      have h2 : r = rEnd := congrArg Prod.snd h1
      rw [← h2]
  | cons v rest ih =>
    cases v with
    | eof =>
        rw [readLoop_cons_eof] at hr
        exact ih r index out rEnd hnone hr
    | null =>
        rw [readLoop_cons_null] at hr
        exact ih r index out rEnd hnone hr
    | err e =>
        rw [readLoop_cons_err] at hr
        exact Except.noConfusion hr
    | doc n =>
        exfalso
        rw [lastDocIndex] at hnone
        cases hl : lastDocIndex rest
            (if isEnvelopeDoc n then index else index + 1) with
        | none =>
            rw [hl] at hnone
            exact Option.noConfusion hnone
        | some k =>
            rw [hl] at hnone
            exact Option.noConfusion hnone

theorem readLoop_last_index (segs : List DecodeResult) (r : ByteReader)
    (index : Nat) (out : List YNode) (rEnd : ByteReader) (k : Nat)
    (homit : r.omitReaderAnnotations = false)
    (hr : r.readLoop index segs = .ok (out, rEnd))
    (hlast : lastDocIndex segs index = some k) :
    ∃ m, rEnd.setAnnotations = some m ∧
      mapLookup m indexAnnotKey = some (toString k) := by
  induction segs generalizing r index out rEnd with
  | nil => exact Option.noConfusion hlast
  | cons v rest ih =>
    cases v with
    | eof =>
        rw [readLoop_cons_eof] at hr
        exact ih r index out rEnd homit hr hlast
    | null =>
        rw [readLoop_cons_null] at hr
        exact ih r index out rEnd homit hr hlast
    | err e =>
        rw [readLoop_cons_err] at hr
        exact Except.noConfusion hr
    | doc n =>
      have hmap : decodeMap r index =
          mapInsert (r.setAnnotations.getD []) indexAnnotKey
            (toString index) := by
        rw [decodeMap, homit]
        rfl
      by_cases he : isEnvelopeDoc n = true
      · have hitsS : (n.field "items").isSome = true := by
          have he2 := he
          simp only [isEnvelopeDoc, Bool.and_eq_true] at he2
          exact he2.2
        obtain ⟨its, hits⟩ := Option.isSome_iff_exists.mp hitsS
        rw [readLoop_cons_doc_env r index n its rest hits he] at hr
        cases hrec : (envState r index n).readLoop index rest with
        | error e => rw [hrec] at hr; exact Except.noConfusion hr
        | ok pr =>
          obtain ⟨out', rEnd'⟩ := pr
          rw [hrec] at hr
          have hEnd : rEnd = rEnd' := by
            injection hr with h1
            exact (congrArg Prod.snd h1).symm
          rw [lastDocIndex] at hlast
          rw [if_pos he] at hlast
          cases hl : lastDocIndex rest index with
          | some k' =>
              rw [hl] at hlast
              injection hlast with h2
              subst h2
              rw [hEnd]
              exact ih (envState r index n) index out' rEnd' homit hrec hl
          | none =>
              rw [hl] at hlast
              injection hlast with h2
              subst h2
              have hpres := readLoop_setAnnots_of_no_doc rest
                (envState r index n) index out' rEnd' hl hrec
              refine ⟨decodeMap r index, ?_, ?_⟩
              · rw [hEnd, hpres]
                rfl
              · rw [hmap, mapLookup_mapInsert_self]
      · have he' : isEnvelopeDoc n = false := by
          cases h : isEnvelopeDoc n with
          | false => rfl
          | true => exact absurd h he
        have hse : isEnvelopeDoc (stampAnnots n (decodeMap r index)) = false := by
          rw [isEnvelopeDoc_stampAnnots]; exact he'
        rw [readLoop_cons_doc_direct r index n rest hse] at hr
        cases hrec : ({ r with setAnnotations := some (decodeMap r index)
            : ByteReader }).readLoop (index + 1) rest with
        | error e => rw [hrec] at hr; exact Except.noConfusion hr
        | ok pr =>
          obtain ⟨out', rEnd'⟩ := pr
          rw [hrec] at hr
          have hEnd : rEnd = rEnd' := by
            injection hr with h1
            exact (congrArg Prod.snd h1).symm
          rw [lastDocIndex] at hlast
          rw [if_neg (by rw [he']; exact Bool.false_ne_true)] at hlast
          cases hl : lastDocIndex rest (index + 1) with
          | some k' =>
              rw [hl] at hlast
              injection hlast with h2
              subst h2
              rw [hEnd]
              exact ih ({ r with setAnnotations := some (decodeMap r index) })
                (index + 1) out' rEnd' homit hrec hl
          | none =>
              rw [hl] at hlast
              injection hlast with h2
              subst h2
              have hpres := readLoop_setAnnots_of_no_doc rest
                ({ r with setAnnotations := some (decodeMap r index) })
                (index + 1) out' rEnd' hl hrec
              refine ⟨decodeMap r index, ?_, ?_⟩
              · rw [hEnd, hpres]
              · rw [hmap, mapLookup_mapInsert_self]

/-- Modelled from the spec: `filepath.Dir` of the Go standard library — the
containing directory of a slash-separated relative path, `"."` when the
path has no separator. -/
def dirOf (path : String) : String :=
  match (path.splitOn "/").dropLast with
  | [] => "."
  | parts => String.intercalate "/" parts

/-- `LocalPackageReader.initReaderAnnotations` (pkgio_reader.go lines
255-263): allocate the shared `SetAnnotations` map when nil and, unless
suppressed, write the package annotation (the file's directory) and the
path annotation (the file's path) into it before the file is read. -/
def initReaderAnnotations (omitRA : Bool)
    (sa : Option (List (String × String))) (path : String) :
    Option (List (String × String)) :=
  let m := sa.getD []
  if omitRA then some m
  else some (mapInsert (mapInsert m packageAnnotKey (dirOf path))
    pathAnnotKey path)

/-- C10: the reader writes the index annotation key into its
`SetAnnotations` map in place, allocating the map when it is nil — so the
caller-shared map still contains the last-assigned index entry after `Read`
returns — and `LocalPackageReader` likewise injects the path and package
annotation keys into this shared map before each file is read. -/
theorem byteReader_mutates_shared_annotations_map :
    (∀ (r : ByteReader) (index : Nat) (n : YNode),
      r.omitReaderAnnotations = false →
      r.decode index (DecodeResult.doc n) =
        .okO (some (stampAnnots n (decodeMap r index)))
          { r with setAnnotations := some (decodeMap r index) } ∧
      mapLookup (decodeMap r index) indexAnnotKey = some (toString index)) ∧
    (∀ (segs : List DecodeResult) (r : ByteReader) (out : List YNode)
        (rEnd : ByteReader) (k : Nat),
      r.omitReaderAnnotations = false →
      r.read segs = .ok (out, rEnd) →
      lastDocIndex segs 0 = some k →
      ∃ m, rEnd.setAnnotations = some m ∧
        mapLookup m indexAnnotKey = some (toString k)) ∧
    (∀ (sa : Option (List (String × String))) (path : String),
      ∃ m, initReaderAnnotations false sa path = some m ∧
        mapLookup m pathAnnotKey = some path ∧
        mapLookup m packageAnnotKey = some (dirOf path)) := by
  refine ⟨?_, ?_, ?_⟩
  · intro r index n homit
    refine ⟨decode_doc r index n, ?_⟩
    rw [decodeMap, homit]
    simp [mapLookup_mapInsert_self]
  · intro segs r out rEnd k homit hr hlast
    exact readLoop_last_index segs r 0 out rEnd k homit hr hlast
  · intro sa path
    refine ⟨_, rfl, ?_, ?_⟩
    · rw [mapLookup_mapInsert_self]
    · rw [mapLookup_mapInsert_ne _ _ _ _ (by decide),
        mapLookup_mapInsert_self]

/-- Witness for C10: concrete instances of all three parts — a decode with
a fresh reader, the sample stream (whose last stamped index is 1), and a
nil caller map with path `dir/a.yaml`. -/
theorem byteReader_mutates_shared_annotations_map_witness :
    (readerInit.decode 0 (DecodeResult.doc docA) =
        .okO (some (stampAnnots docA (decodeMap readerInit 0)))
          { readerInit with
            setAnnotations := some (decodeMap readerInit 0) } ∧
      mapLookup (decodeMap readerInit 0) indexAnnotKey =
        some (toString 0)) ∧
    (∃ out rEnd, readerInit.read segsSample = .ok (out, rEnd) ∧
      ∃ m, rEnd.setAnnotations = some m ∧
        mapLookup m indexAnnotKey = some (toString 1)) ∧
    (∃ m, initReaderAnnotations false none "dir/a.yaml" = some m ∧
      mapLookup m pathAnnotKey = some "dir/a.yaml" ∧
      mapLookup m packageAnnotKey = some (dirOf "dir/a.yaml")) := by
  refine ⟨byteReader_mutates_shared_annotations_map.1 readerInit 0 docA rfl,
    ⟨_, _, rfl, byteReader_mutates_shared_annotations_map.2.1 segsSample
      readerInit _ _ 1 rfl rfl rfl⟩,
    byteReader_mutates_shared_annotations_map.2.2 none "dir/a.yaml"⟩

/-- C4: `ByteReader.Read` buffers the whole input and splits it exactly on
the literal `"\n---\n"` separator; segments whose decode signals
end-of-input and segments decoding to an explicit null document are skipped
without error and contribute no output, so dropping them from the segment
list leaves the result (output, state, and absence of error) unchanged. -/
theorem byteReader_read_splits_and_skips_empty (r : ByteReader)
    (dec : String → DecodeResult) (s : String) :
    r.readString dec s =
      r.read (((s.splitOn "\n---\n").map dec).filter
        (fun v => ! v.skippable)) := by
  rw [ByteReader.readString, ByteReader.read, ByteReader.read]
  exact readLoop_filter_skippable _ r 0

/-- C5: a decoded document whose kind is `ResourceList` or `List` and which
has an `items` field is treated as an envelope: the reader records its kind
and apiVersion as the wrapping metadata, captures a present `functionConfig`
field, appends the elements of `items` in order as top-level output
documents, and does not append the envelope itself (the remaining segments
are processed from the same index, with the same suppressed/enabled
annotation mode). -/
theorem byteReader_read_unwraps_envelope (r : ByteReader) (index : Nat)
    (n its : YNode) (rest : List DecodeResult)
    (hk : n.getKind = ResourceListKind ∨ n.getKind = "List")
    (hits : n.field "items" = some its) :
    ∃ r2 : ByteReader,
      r.readLoop index (DecodeResult.doc n :: rest) =
        Except.map (fun p => (its.contentElems ++ p.1, p.2))
          (r2.readLoop index rest) ∧
      r2.wrappingKind = n.getKind ∧
      r2.wrappingApiVersion = n.getApiVersion ∧
      (∀ fc, n.field "functionConfig" = some fc → r2.functionConfig = some fc) ∧
      r2.omitReaderAnnotations = r.omitReaderAnnotations := by
  have henv : isEnvelopeDoc n = true := by
    rw [isEnvelopeDoc, hits]
    rcases hk with h | h <;> simp [h, ResourceListKind]
  have hstampk := getKind_stampAnnots n (decodeMap r index)
  have hstampa := getApiVersion_stampAnnots n (decodeMap r index)
  have hstampi : (stampAnnots n (decodeMap r index)).field "items" = some its := by
    rw [field_stampAnnots_ne n _ "items" (by decide), hits]
  have hstampf : (stampAnnots n (decodeMap r index)).field "functionConfig"
      = n.field "functionConfig" :=
    field_stampAnnots_ne n _ "functionConfig" (by decide)
  have hstampe : isEnvelopeDoc (stampAnnots n (decodeMap r index)) = true := by
    rw [isEnvelopeDoc_stampAnnots]; exact henv
  refine ⟨{ { r with setAnnotations := some (decodeMap r index) } with
      wrappingKind := (stampAnnots n (decodeMap r index)).getKind
      wrappingApiVersion := (stampAnnots n (decodeMap r index)).getApiVersion
      functionConfig :=
        match (stampAnnots n (decodeMap r index)).field "functionConfig" with
        | some fc => some fc
        | none => r.functionConfig }, ?_, ?_, ?_, ?_, ?_⟩
  · rw [ByteReader.readLoop, decode_doc]
    simp only [if_pos hstampe, hstampi]
    cases ByteReader.readLoop _ index rest with
    | error e => rfl
    | ok p => cases p; rfl
  · rw [hstampk]
  · rw [hstampa]
  · intro fc hfc
    simp only [hstampf, hfc]
  · rfl

/-- Witness for C5 at the spec scenario: a `ResourceList` envelope carrying
`items: [{a: 1}, {b: 2}]` and nothing else in the stream. -/
theorem byteReader_read_unwraps_envelope_witness :
    ∃ r2 : ByteReader,
      ByteReader.readLoop ⟨false, none, none, "", ""⟩ 0
          [DecodeResult.doc (YNode.mapping
            [("kind", YNode.scalar "ResourceList"),
             ("apiVersion", YNode.scalar "kyaml.kustomize.dev/v1alpha1"),
             ("items", YNode.sequence
               [YNode.mapping [("a", YNode.scalar "1")],
                YNode.mapping [("b", YNode.scalar "2")]])])] =
        Except.map (fun p =>
          ((YNode.sequence
            [YNode.mapping [("a", YNode.scalar "1")],
             YNode.mapping [("b", YNode.scalar "2")]]).contentElems ++ p.1,
           p.2))
          (r2.readLoop 0 []) ∧
      r2.wrappingKind =
        (YNode.mapping
          [("kind", YNode.scalar "ResourceList"),
           ("apiVersion", YNode.scalar "kyaml.kustomize.dev/v1alpha1"),
           ("items", YNode.sequence
             [YNode.mapping [("a", YNode.scalar "1")],
              YNode.mapping [("b", YNode.scalar "2")]])]).getKind ∧
      r2.wrappingApiVersion =
        (YNode.mapping
          [("kind", YNode.scalar "ResourceList"),
           ("apiVersion", YNode.scalar "kyaml.kustomize.dev/v1alpha1"),
           ("items", YNode.sequence
             [YNode.mapping [("a", YNode.scalar "1")],
              YNode.mapping [("b", YNode.scalar "2")]])]).getApiVersion ∧
      (∀ fc, (YNode.mapping
          [("kind", YNode.scalar "ResourceList"),
           ("apiVersion", YNode.scalar "kyaml.kustomize.dev/v1alpha1"),
           ("items", YNode.sequence
             [YNode.mapping [("a", YNode.scalar "1")],
              YNode.mapping [("b", YNode.scalar "2")]])]).field "functionConfig"
          = some fc → r2.functionConfig = some fc) ∧
      r2.omitReaderAnnotations = false :=
  byteReader_read_unwraps_envelope ⟨false, none, none, "", ""⟩ 0 _ _ []
    (Or.inl rfl) rfl

/-! ### Filters (`kyaml/yaml/filters.go`) -/

/-- A pipeline filter as a pure function: `node -> (node, error)`, where a
`none` node is the "no match" signal (spec 4.1). -/
abbrev FilterFn := YNode → Except String (Option YNode)

/-- Modelled from the spec: `RNode.Pipe` — apply the filters strictly left
to right, the result of filter `i` feeding filter `i+1`, stopping
immediately on a `nil` node or an error. -/
def pipeFilters (n : YNode) : List FilterFn → Except String (Option YNode)
  | [] => .ok (some n)
  | f :: fs =>
    match f n with
    | .error e => .error e
    | .ok none => .ok none
    | .ok (some m) => pipeFilters m fs

/-- `FilterMatcher` (filters.go lines 73-78): a named sub-pipeline used as
a predicate. -/
structure FilterMatcher where
  kind : String
  filters : List FilterFn

/-- `FilterMatcher.Filter` (filters.go lines 80-87): run the sub-pipeline;
on a nil result or an error return that, otherwise return the original
input node. -/
def FilterMatcher.Filter (t : FilterMatcher) (rn : YNode) :
    Except String (Option YNode) :=
  match pipeFilters rn t.filters with
  | .error e => .error e
  | .ok none => .ok none
  | .ok (some _) => .ok (some rn)

/-- C6: if the sub-pipeline yields a non-nil node without error,
`FilterMatcher.Filter` returns the original input node unchanged; a nil
sub-pipeline result gives nil without error; a sub-pipeline error
propagates. -/
theorem filterMatcher_returns_original (t : FilterMatcher) (rn : YNode) :
    (∀ v, pipeFilters rn t.filters = .ok (some v) →
      t.Filter rn = .ok (some rn)) ∧
    (pipeFilters rn t.filters = .ok none → t.Filter rn = .ok none) ∧
    (∀ e, pipeFilters rn t.filters = .error e → t.Filter rn = .error e) := by
  refine ⟨?_, ?_, ?_⟩
  · intro v h
    simp only [FilterMatcher.Filter, h]
  · intro h
    simp only [FilterMatcher.Filter, h]
  · intro e h
    simp only [FilterMatcher.Filter, h]

/-- Witness for C6: the empty sub-pipeline yields the node itself, so the
filter returns the original node. -/
theorem filterMatcher_returns_original_witness :
    FilterMatcher.Filter ⟨"FilterMatcher", []⟩ docA = .ok (some docA) :=
  (filterMatcher_returns_original ⟨"FilterMatcher", []⟩ docA).1 docA rfl

/-- The registered filter constructors (tags for the concrete filter types
named in the `Filters` registry). -/
inductive FilterKind where
  | annotationClearer
  | annotationGetter
  | annotationSetter
  | elementAppender
  | elementMatcher
  | fieldClearer
  | filterMatcher
  | fieldMatcher
  | fieldSetter
  | pathGetter
  | pathMatcher
  | parserF
  | prefixSetterF
  | valueReplacerF
  | suffixSetterF
  | teePiper
  deriving Repr, DecidableEq

/-- The global filter registry `yaml.Filters` (filters.go lines 13-30), in
source order. -/
def Filters : List (String × FilterKind) :=
  [("AnnotationClearer", .annotationClearer),
   ("AnnotationGetter", .annotationGetter),
   ("AnnotationSetter", .annotationSetter),
   ("ElementAppender", .elementAppender),
   ("ElementMatcher", .elementMatcher),
   ("FieldClearer", .fieldClearer),
   ("FilterMatcher", .filterMatcher),
   ("FieldMatcher", .fieldMatcher),
   ("FieldSetter", .fieldSetter),
   ("PathGetter", .pathGetter),
   ("PathMatcher", .pathMatcher),
   ("Parser", .parserF),
   ("PrefixSetter", .prefixSetterF),
   ("ValueReplacer", .valueReplacerF),
   ("SuffixSetter", .suffixSetterF),
   ("TeePiper", .teePiper)]

/-- Executable check that a list of strings is strictly sorted in the
lexicographic order. -/
def sortedChainB : List String → Bool
  | [] => true
  | [_] => true
  | a :: b :: rest => strLtB a.data b.data && sortedChainB (b :: rest)

/-- Registry lookup by the declaration `kind` (Go map indexing). -/
def lookupFilter : List (String × FilterKind) → String → Option FilterKind
  | [], _ => none
  | (k, f) :: rest, kind => if k = kind then some f else lookupFilter rest kind

/-- A declarative filter declaration: the `kind` discriminator plus the
remaining kind-specific fields (untyped key/value pairs). -/
structure FilterDecl where
  kind : String
  fields : List (String × String)

/-- A constructed filter instance: the registered constructor that was
selected, populated with the declaration fields (the second `unmarshal`
call of the Go code, an external YAML unmarshaller, is modelled as carrying
the declaration fields into the instance). -/
structure FilterInst where
  fkind : FilterKind
  fields : List (String × String)
  deriving Repr, DecidableEq

/-- `YFilter.UnmarshalYAML` (filters.go lines 41-61): look the declared
`kind` up in the registry; unknown kinds fail with an error listing all
registered kind names sorted; otherwise the matching constructor's
instance is created and populated from the declaration. -/
def YFilter.unmarshalYAML (decl : FilterDecl) : Except String FilterInst :=
  match lookupFilter Filters decl.kind with
  | some f => .ok ⟨f, decl.fields⟩
  | none => .error ("unsupported GrepFilter Kind " ++ decl.kind ++
      (":  may be one of: [" ++
        String.intercalate "," (sortStrings (Filters.map Prod.fst)) ++ "]"))

/-- C7: declarative construction fails exactly on an unregistered `kind`,
with an error listing all sixteen registered kind names sorted
lexicographically; a registered `kind` yields the corresponding
constructor's instance populated from the remaining declaration fields. -/
theorem yfilter_unmarshal_requires_registered_kind (decl : FilterDecl) :
    (lookupFilter Filters decl.kind = none →
      YFilter.unmarshalYAML decl = .error ("unsupported GrepFilter Kind "
        ++ decl.kind ++
        (":  may be one of: [AnnotationClearer,AnnotationGetter,AnnotationSetter,ElementAppender,ElementMatcher,FieldClearer,FieldMatcher,FieldSetter,FilterMatcher,Parser,PathGetter,PathMatcher,PrefixSetter,SuffixSetter,TeePiper,ValueReplacer]"))) ∧
    sortStrings (Filters.map Prod.fst) =
      ["AnnotationClearer", "AnnotationGetter", "AnnotationSetter",
       "ElementAppender", "ElementMatcher", "FieldClearer", "FieldMatcher",
       "FieldSetter", "FilterMatcher", "Parser", "PathGetter", "PathMatcher",
       "PrefixSetter", "SuffixSetter", "TeePiper", "ValueReplacer"] ∧
    sortedChainB (sortStrings (Filters.map Prod.fst)) = true ∧
    (∀ k, k ∈ sortStrings (Filters.map Prod.fst) ↔
      k ∈ Filters.map Prod.fst) ∧
    (∀ f, lookupFilter Filters decl.kind = some f →
      YFilter.unmarshalYAML decl = .ok ⟨f, decl.fields⟩) := by
  have hsort : sortStrings (Filters.map Prod.fst) =
      ["AnnotationClearer", "AnnotationGetter", "AnnotationSetter",
       "ElementAppender", "ElementMatcher", "FieldClearer", "FieldMatcher",
       "FieldSetter", "FilterMatcher", "Parser", "PathGetter", "PathMatcher",
       "PrefixSetter", "SuffixSetter", "TeePiper", "ValueReplacer"] := by
    decide
  refine ⟨?_, hsort, ?_, fun k => mem_sortStrings k _, ?_⟩
  · intro h
    simp only [YFilter.unmarshalYAML, h]
    rw [hsort]
    rfl
  · rw [hsort]
    decide
  · intro f h
    simp only [YFilter.unmarshalYAML, h]

/-- Witness for C7: an unknown kind `Bogus` fails with the sorted listing,
and the registered kind `PrefixSetter` constructs the populated instance. -/
theorem yfilter_unmarshal_requires_registered_kind_witness :
    YFilter.unmarshalYAML ⟨"Bogus", []⟩ =
      .error ("unsupported GrepFilter Kind " ++ "Bogus" ++
        (":  may be one of: [AnnotationClearer,AnnotationGetter,AnnotationSetter,ElementAppender,ElementMatcher,FieldClearer,FieldMatcher,FieldSetter,FilterMatcher,Parser,PathGetter,PathMatcher,PrefixSetter,SuffixSetter,TeePiper,ValueReplacer]")) ∧
    YFilter.unmarshalYAML ⟨"PrefixSetter", [("value", "x")]⟩ =
      .ok ⟨FilterKind.prefixSetterF, [("value", "x")]⟩ :=
  ⟨(yfilter_unmarshal_requires_registered_kind ⟨"Bogus", []⟩).1 rfl,
   (yfilter_unmarshal_requires_registered_kind
     ⟨"PrefixSetter", [("value", "x")]⟩).2.2.2.2 FilterKind.prefixSetterF rfl⟩

/-- go-yaml `Node.Value`: the scalar text (empty for non-scalar nodes). -/
def YNode.value : YNode → String
  | .scalar v => v
  | _ => ""

/-- Writing go-yaml `Node.Value`: visible content only for scalar nodes
(for mapping and sequence nodes the stored text is not part of the tree
content, so the model keeps the node unchanged). -/
def YNode.setValue : YNode → String → YNode
  | .scalar _, v => .scalar v
  | n, _ => n

/-- `strings.HasPrefix` on character lists: does `s` start with `pat`? -/
def leadsWith : List Char → List Char → Bool
  | [], _ => true
  | _ :: _, [] => false
  | p :: ps, c :: cs => p == c && leadsWith ps cs

/-- `strings.HasSuffix` on character lists: does `s` end with `pat`? -/
def trailsWith (pat s : List Char) : Bool :=
  leadsWith pat.reverse s.reverse

theorem leadsWith_append (p t : List Char) : leadsWith p (p ++ t) = true := by
  induction p with
  | nil => rfl
  | cons c cs ih => simp [leadsWith, ih]

/-- `strings.Replace` with a replacement budget, written with explicit fuel
(`fuel = s.length` always suffices, each step either consumes at least one
character of `s` or stops): scan left to right, replace each leftmost
non-overlapping occurrence of `old` while the budget is nonzero (a negative
budget never reaches zero, i.e. replaces every occurrence). The Go
behaviour for `old = ""` (rune-boundary insertion) is not modelled — the
`ValueReplacer` call site guarantees a nonempty `old`. -/
def replaceFuel : Nat → List Char → List Char → List Char → Int → List Char
  | 0, s, _, _, _ => s
  | fuel + 1, s, old, new, n =>
    if n = 0 then s
    else if old ≠ [] ∧ leadsWith old s = true then
      new ++ replaceFuel fuel (s.drop old.length) old new (n - 1)
    else
      match s with
      | [] => []
      | c :: rest => c :: replaceFuel fuel rest old new n

/-- `strings.Replace(s, old, new, n)` on character lists. -/
def replaceChars (s old new : List Char) (n : Int) : List Char :=
  replaceFuel s.length s old new n

/-- Replace every leftmost non-overlapping occurrence, no budget: the
specification of unlimited replacement. -/
def replaceAllFuel : Nat → List Char → List Char → List Char → List Char
  | 0, s, _, _ => s
  | fuel + 1, s, old, new =>
    if old ≠ [] ∧ leadsWith old s = true then
      new ++ replaceAllFuel fuel (s.drop old.length) old new
    else
      match s with
      | [] => []
      | c :: rest => c :: replaceAllFuel fuel rest old new

/-- Unlimited replacement of every occurrence of `old`. -/
def replaceAllChars (s old new : List Char) : List Char :=
  replaceAllFuel s.length s old new

theorem replaceFuel_succ (fuel : Nat) (s old new : List Char) (n : Int) :
    replaceFuel (fuel + 1) s old new n =
      if n = 0 then s
      else if old ≠ [] ∧ leadsWith old s = true then
        new ++ replaceFuel fuel (s.drop old.length) old new (n - 1)
      else
        match s with
        | [] => []
        | c :: rest => c :: replaceFuel fuel rest old new n := rfl

theorem replaceAllFuel_succ (fuel : Nat) (s old new : List Char) :
    replaceAllFuel (fuel + 1) s old new =
      if old ≠ [] ∧ leadsWith old s = true then
        new ++ replaceAllFuel fuel (s.drop old.length) old new
      else
        match s with
        | [] => []
        | c :: rest => c :: replaceAllFuel fuel rest old new := rfl

theorem replaceFuel_neg (fuel : Nat) (s old new : List Char) (n : Int)
    (hn : n < 0) :
    replaceFuel fuel s old new n = replaceAllFuel fuel s old new := by
  induction fuel generalizing s n with
  | zero => rfl
  | succ fuel ih =>
      rw [replaceFuel_succ, replaceAllFuel_succ]
      rw [if_neg (by omega : ¬ n = 0)]
      by_cases h : old ≠ [] ∧ leadsWith old s = true
      · rw [if_pos h, if_pos h, ih _ _ (by omega)]
      · rw [if_neg h, if_neg h]
        cases s with
        | nil => rfl
        | cons c rest =>
            show c :: replaceFuel fuel rest old new n =
              c :: replaceAllFuel fuel rest old new
            rw [ih rest n hn]

theorem replaceChars_neg (s old new : List Char) (n : Int) (hn : n < 0) :
    replaceChars s old new n = replaceAllChars s old new :=
  replaceFuel_neg s.length s old new n hn

/-- `ValueReplacer` (filters.go lines 89-96). -/
structure ValueReplacer where
  kind : String
  stringMatch : String
  regexMatch : String
  replace : String
  count : Int

/-- `ValueReplacer.Filter` (filters.go lines 98-114): a zero count is
mapped to the unlimited sentinel `-1`; a nonempty literal match runs
`strings.Replace` on the scalar text; otherwise a nonempty regex match is
compiled (the external `regexp` package is abstracted by `rxCompile`,
`none` meaning the pattern does not compile; the Go error wraps the
compile error detail, elided here) and all its matches are replaced;
otherwise the filter fails with the missing-match error. -/
def ValueReplacer.Filter (s : ValueReplacer)
    (rxCompile : String → Option (String → String → String))
    (object : YNode) : Except String YNode :=
  if s.stringMatch ≠ "" then
    .ok (object.setValue (String.mk (replaceChars object.value.data
      s.stringMatch.data s.replace.data
      (if s.count = 0 then -1 else s.count))))
  else if s.regexMatch ≠ "" then
    match rxCompile s.regexMatch with
    | none => .error "ValueReplacer RegexMatch does not compile"
    | some replAll => .ok (object.setValue (replAll object.value s.replace))
  else .error "ValueReplacer missing StringMatch and RegexMatch"

/-- C8: `ValueReplacer.Filter` fails with the missing-match error exactly
when both the literal and the regex match are empty; a zero count behaves
as the unlimited sentinel `-1`, so a literal match with count zero replaces
every occurrence; and on the regex path every match of the compiled
pattern is replaced (via the compiled pattern's replace-all function). -/
theorem valueReplacer_filter_spec
    (rx : String → Option (String → String → String)) (obj : YNode) :
    (∀ s : ValueReplacer,
      (s.stringMatch = "" ∧ s.regexMatch = "") ↔
        s.Filter rx obj =
          .error "ValueReplacer missing StringMatch and RegexMatch") ∧
    (∀ s : ValueReplacer, s.count = 0 →
      s.Filter rx obj = ValueReplacer.Filter
        ⟨s.kind, s.stringMatch, s.regexMatch, s.replace, -1⟩ rx obj) ∧
    (∀ s : ValueReplacer, s.stringMatch ≠ "" → s.count = 0 →
      s.Filter rx obj = .ok (obj.setValue (String.mk (replaceAllChars
        obj.value.data s.stringMatch.data s.replace.data)))) ∧
    (∀ (s : ValueReplacer) (f : String → String → String),
      s.stringMatch = "" → s.regexMatch ≠ "" → rx s.regexMatch = some f →
      s.Filter rx obj = .ok (obj.setValue (f obj.value s.replace))) := by
  refine ⟨?_, ?_, ?_, ?_⟩
  · intro s
    constructor
    · rintro ⟨h1, h2⟩
      rw [ValueReplacer.Filter, if_neg (by simp [h1]), if_neg (by simp [h2])]
    · intro h
      by_cases hs : s.stringMatch = ""
      · by_cases hr2 : s.regexMatch = ""
        · exact ⟨hs, hr2⟩
        · exfalso
          rw [ValueReplacer.Filter, if_neg (by simp [hs]), if_pos hr2] at h
          cases hrx : rx s.regexMatch with
          | none =>
              rw [hrx] at h
              exact absurd (Except.error.inj h) (by decide)
          | some f =>
              rw [hrx] at h
              exact Except.noConfusion h
      · exfalso
        rw [ValueReplacer.Filter, if_pos hs] at h
        exact Except.noConfusion h
  · intro s hc
    rw [ValueReplacer.Filter, ValueReplacer.Filter]
    simp only [hc]
    norm_num
  · intro s hne hc
    rw [ValueReplacer.Filter, if_pos hne, hc, if_pos rfl,
      replaceChars_neg _ _ _ _ (by norm_num)]
  · intro s f hs hr hrx
    rw [ValueReplacer.Filter, if_neg (by simp [hs]), if_pos hr, hrx]

/-- Witness for C8: the spec scenario — a literal `foo -> bar` replacement
with count zero on the scalar `"foofoo"` yields `"barbar"`. -/
theorem valueReplacer_filter_spec_witness :
    ValueReplacer.Filter ⟨"", "foo", "", "bar", 0⟩ (fun _ => none)
      (YNode.scalar "foofoo") = .ok (YNode.scalar "barbar") := by
  have h := (valueReplacer_filter_spec (fun _ => none)
    (YNode.scalar "foofoo")).2.2.1 ⟨"", "foo", "", "bar", 0⟩ (by decide) rfl
  rw [h]
  rfl

/-- `PrefixSetter` (filters.go lines 116-120). -/
structure PrefixSetter where
  kind : String
  value : String

/-- `PrefixSetter.Filter` (filters.go lines 122-127): prepend the
configured value only when the scalar text does not already start with
it. -/
def PrefixSetter.Filter (s : PrefixSetter) (object : YNode) : YNode :=
  if leadsWith s.value.data object.value.data then object
  else object.setValue (s.value ++ object.value)

/-- `SuffixSetter` (filters.go lines 129-133). -/
structure SuffixSetter where
  kind : String
  value : String

/-- `SuffixSetter.Filter` (filters.go lines 135-140): append the
configured value only when the scalar text does not already end with
it. -/
def SuffixSetter.Filter (s : SuffixSetter) (object : YNode) : YNode :=
  if trailsWith s.value.data object.value.data then object
  else object.setValue (object.value ++ s.value)

/-- C9: `PrefixSetter.Filter` and `SuffixSetter.Filter` are idempotent on
scalar nodes: applying the same filter twice yields the same scalar as
applying it once, because the literal is only prepended/appended when the
value does not already start/end with it. -/
theorem prefixSetter_suffixSetter_idempotent :
    (∀ (s : PrefixSetter) (v : String),
      s.Filter (s.Filter (YNode.scalar v)) = s.Filter (YNode.scalar v)) ∧
    (∀ (s : SuffixSetter) (v : String),
      s.Filter (s.Filter (YNode.scalar v)) = s.Filter (YNode.scalar v)) := by
  constructor
  · intro s v
    by_cases h : leadsWith s.value.data (YNode.scalar v).value.data = true
    · have h1 : s.Filter (YNode.scalar v) = YNode.scalar v := by
        rw [PrefixSetter.Filter, if_pos h]
      rw [h1]
      exact h1
    · have h1 : s.Filter (YNode.scalar v) = YNode.scalar (s.value ++ v) := by
        rw [PrefixSetter.Filter, if_neg h]
        rfl
      rw [h1]
      have h2 : leadsWith s.value.data
          (YNode.scalar (s.value ++ v)).value.data = true := by
        show leadsWith s.value.data (s.value ++ v).data = true
        rw [String.data_append]
        exact leadsWith_append _ _
      rw [PrefixSetter.Filter, if_pos h2]
  · intro s v
    by_cases h : trailsWith s.value.data (YNode.scalar v).value.data = true
    · have h1 : s.Filter (YNode.scalar v) = YNode.scalar v := by
        rw [SuffixSetter.Filter, if_pos h]
      rw [h1]
      exact h1
    · have h1 : s.Filter (YNode.scalar v) = YNode.scalar (v ++ s.value) := by
        rw [SuffixSetter.Filter, if_neg h]
        rfl
      rw [h1]
      have h2 : trailsWith s.value.data
          (YNode.scalar (v ++ s.value)).value.data = true := by
        show leadsWith s.value.data.reverse ((v ++ s.value)).data.reverse = true
        rw [String.data_append, List.reverse_append]
        exact leadsWith_append _ _
      rw [SuffixSetter.Filter, if_pos h2]

/-! ### LocalPackageReadWriter (`kyaml/kio/pkgio_reader.go`) -/

/-- The filesystem as the set of existing file paths (file contents play no
role in the synchronization logic). -/
abbrev Fs := List String

/-- Modelled from the spec: `os.Remove` of the Go standard library —
remove the path, failing when it does not exist. -/
def osRemove (p : String) (fs : Fs) : Fs × Option String :=
  if p ∈ fs then (fs.filter (fun q => decide (q ≠ p)), none)
  else (fs, some ("remove " ++ p ++ ": no such file or directory"))

/-- Modelled from the spec: `filepath.Join(dir, name)` — the name joined
under the directory (the Go library's path cleaning is not modelled). -/
def joinPath (dir f : String) : String := dir ++ "/" ++ f

/-- Modelled from the spec: `sets.String.Difference` — the elements of the
first set absent from the second. -/
def diffS (a b : List String) : List String :=
  a.filter (fun x => decide (x ∉ b))

/-- Modelled from the spec: `sets.String.Insert` on the list model — add
the element unless already present. -/
def insertS (s : List String) (x : String) : List String :=
  if x ∈ s then s else s ++ [x]

/-- Modelled from the spec: `kioutil.GetFileAnnotations` — the path and
index annotation values of a node (the modelled lookup never fails, so the
caller's error branch is dead). -/
def getFileAnnotations (n : YNode) : String × String :=
  ((getAnnot pathAnnotKey n).getD "", (getAnnot indexAnnotKey n).getD "")

/-- `LocalPackageReadWriter` (pkgio_reader.go lines 33-69). -/
structure LocalPackageReadWriter where
  kind : String
  keepReaderAnnotations : Bool
  packagePath : String
  packageFileName : String
  matchFilesGlob : List String
  includeSubpackages : Bool
  errorIfNonResources : Bool
  omitReaderAnnotations : Bool
  setAnnotations : List (String × String)
  noDeleteFiles : Bool
  files : List String

/-- `LocalPackageReadWriter.getFiles` (pkgio_reader.go lines 118-128): the
set of path annotations of the nodes. -/
def LocalPackageReadWriter.getFiles (nodes : List YNode) : List String :=
  nodes.foldl (fun val n => insertS val (getFileAnnotations n).1) []

/-- `LocalPackageReadWriter.Read` (pkgio_reader.go lines 71-90): delegate
to the inner `LocalPackageReader` (its directory walk is abstracted as the
delivered result) and, unless `NoDeleteFiles` is set, record the path
annotations of the read nodes as the tracked file set. -/
def LocalPackageReadWriter.Read (r : LocalPackageReadWriter)
    (innerRead : Except String (List YNode)) :
    Except String (List YNode × LocalPackageReadWriter) :=
  match innerRead with
  | .error e => .error e
  | .ok nodes =>
      if ! r.noDeleteFiles then
        .ok (nodes, { r with files := LocalPackageReadWriter.getFiles nodes })
      else .ok (nodes, r)

/-- Modelled from the spec: `LocalPackageWriter.Write` — the external
package writer collaborator, abstracted as a function from its
configuration (package path, clear-annotations list, keep-annotations
flag), the nodes and the filesystem to the updated filesystem plus an
optional error. -/
abbrev PkgWriter :=
  String → List String → Bool → List YNode → Fs → Fs × Option String

/-- The deletion loop of `LocalPackageReadWriter.Write`: remove each stale
path joined under the package path, aborting on the first failure (earlier
removals persist). -/
def removeLoop (pkg : String) (fs : Fs) : List String → Fs × Option String
  | [] => (fs, none)
  | f :: rest =>
    match osRemove (joinPath pkg f) fs with
    | (fs2, none) => removeLoop pkg fs2 rest
    | (fs2, some e) => (fs2, some e)

/-- `LocalPackageReadWriter.Write` (pkgio_reader.go lines 92-116): compute
the new file set from the nodes, run the package writer, then delete every
previously-tracked file absent from the new set. No field of the
read-writer is assigned, so the returned state is the receiver unchanged. -/
def LocalPackageReadWriter.Write (r : LocalPackageReadWriter)
    (pw : PkgWriter) (nodes : List YNode) (fs : Fs) :
    LocalPackageReadWriter × Fs × Option String :=
  let newFiles := LocalPackageReadWriter.getFiles nodes
  let clear := r.setAnnotations.map Prod.fst
  match pw r.packagePath clear r.keepReaderAnnotations nodes fs with
  | (fs2, some e) => (r, fs2, some e)
  | (fs2, none) =>
      let res := removeLoop r.packagePath fs2 (diffS r.files newFiles)
      (r, res.1, res.2)

/-- A node carrying the path annotation `b.yaml`. -/
def nodeB : YNode := YNode.mapping
  [("metadata", YNode.mapping
    [("annotations", YNode.mapping
      [(pathAnnotKey, YNode.scalar "b.yaml")])])]

/-- A read-writer that previously tracked `a.yaml` under package `pkg`. -/
def rwSample : LocalPackageReadWriter :=
  ⟨"", false, "pkg", "", [], false, false, false, [], false, ["a.yaml"]⟩

/-- A package writer that always succeeds and writes nothing new. -/
def pwOk : PkgWriter := fun _ _ _ _ fs => (fs, none)

/-- C2 (counterexample): after a successful `Write` the tracked file set is
NOT recomputed — it still holds the set from the last `Read`, not the path
annotations of the just-written nodes. -/
theorem write_does_not_recompute_files_counterexample :
    (LocalPackageReadWriter.Write rwSample pwOk [nodeB] ["pkg/a.yaml"]).2.2
      = none ∧
    (LocalPackageReadWriter.Write rwSample pwOk [nodeB] ["pkg/a.yaml"]).1.files
      ≠ LocalPackageReadWriter.getFiles [nodeB] := by
  constructor
  · rfl
  · intro h
    exact absurd h (by decide)

/-- C2 (amended): the tracked file set is recomputed only by `Read` (when
`NoDeleteFiles` is unset it becomes the path-annotation set of the
documents just read); `Write` computes the new set only locally for the
deletion diff and returns the read-writer state unchanged. -/
theorem localPackageReadWriter_files_recomputed_on_read_only :
    (∀ (r : LocalPackageReadWriter) (inner : Except String (List YNode))
        (nodes : List YNode) (r2 : LocalPackageReadWriter),
      r.noDeleteFiles = false →
      r.Read inner = .ok (nodes, r2) →
      r2.files = LocalPackageReadWriter.getFiles nodes) ∧
    (∀ (r : LocalPackageReadWriter) (pw : PkgWriter) (nodes : List YNode)
        (fs : Fs), (r.Write pw nodes fs).1 = r) := by
  constructor
  · intro r inner nodes r2 hnd hr
    cases inner with
    | error e =>
        rw [LocalPackageReadWriter.Read] at hr
        exact Except.noConfusion hr
    | ok ns =>
        rw [LocalPackageReadWriter.Read] at hr
        rw [if_pos (by rw [hnd]; rfl)] at hr
        injection hr with h1
        have h2 : ns = nodes := congrArg Prod.fst h1
        have h3 : ({ r with files := LocalPackageReadWriter.getFiles ns }
            : LocalPackageReadWriter) = r2 := congrArg Prod.snd h1
        rw [← h3, ← h2]
  · intro r pw nodes fs
    rw [LocalPackageReadWriter.Write]
    cases hpw : pw r.packagePath (r.setAnnotations.map Prod.fst)
        r.keepReaderAnnotations nodes fs with
    | mk fs2 err =>
        cases err with
        | none => rfl
        | some e => rfl

/-- Witness for the amended C2: a concrete read recomputes the set, and a
concrete write leaves the state untouched. -/
theorem localPackageReadWriter_files_recomputed_on_read_only_witness :
    (∃ nodes r2, LocalPackageReadWriter.Read rwSample (.ok [nodeB]) =
        .ok (nodes, r2) ∧
      r2.files = LocalPackageReadWriter.getFiles nodes) ∧
    (LocalPackageReadWriter.Write rwSample pwOk [nodeB] []).1 = rwSample := by
  constructor
  · exact ⟨_, _, rfl,
      localPackageReadWriter_files_recomputed_on_read_only.1 rwSample
        (.ok [nodeB]) _ _ rfl rfl⟩
  · exact localPackageReadWriter_files_recomputed_on_read_only.2 rwSample
      pwOk [nodeB] []

theorem filter_notMem_cons (fs : Fs) (j : String) (js : List String) :
    (fs.filter (fun q => decide (q ≠ j))).filter
        (fun p => decide (p ∉ js)) =
      fs.filter (fun p => decide (p ∉ j :: js)) := by
  rw [List.filter_filter]
  apply List.filter_congr
  intro x _
  by_cases h1 : x = j <;> by_cases h2 : x ∈ js <;> simp [h1, h2]

theorem removeLoop_ok (pkg : String) (ps : List String) (fs : Fs)
    (h : (removeLoop pkg fs ps).2 = none) :
    (removeLoop pkg fs ps).1 =
      fs.filter (fun p => decide (p ∉ ps.map (joinPath pkg))) := by
  induction ps generalizing fs with
  | nil => simp [removeLoop]
  | cons f rest ih =>
      rw [removeLoop] at h ⊢
      by_cases hmem : joinPath pkg f ∈ fs
      · rw [osRemove, if_pos hmem] at h ⊢
        rw [ih _ h, filter_notMem_cons, List.map_cons]
      · rw [osRemove, if_neg hmem] at h
        exact Option.noConfusion h

theorem removeLoop_err (pkg : String) (ps : List String) (fs : Fs)
    (e : String) (h : (removeLoop pkg fs ps).2 = some e) :
    ∃ pre f post, ps = pre ++ f :: post ∧
      (removeLoop pkg fs ps).1 =
        fs.filter (fun p => decide (p ∉ pre.map (joinPath pkg))) ∧
      e = "remove " ++ joinPath pkg f ++ ": no such file or directory" ∧
      joinPath pkg f ∉
        fs.filter (fun p => decide (p ∉ pre.map (joinPath pkg))) := by
  induction ps generalizing fs with
  | nil =>
      rw [removeLoop] at h
      exact Option.noConfusion h
  | cons f rest ih =>
      rw [removeLoop] at h ⊢
      by_cases hmem : joinPath pkg f ∈ fs
      · rw [osRemove, if_pos hmem] at h ⊢
        obtain ⟨pre, f0, post, hps, hfs, he, habs⟩ := ih _ h
        refine ⟨f :: pre, f0, post, by rw [hps]; rfl, ?_, he, ?_⟩
        · rw [hfs, filter_notMem_cons, List.map_cons]
        · rw [List.map_cons]
          rw [filter_notMem_cons] at habs
          exact habs
      · rw [osRemove, if_neg hmem] at h ⊢
        injection h with h1
        refine ⟨[], f, rest, rfl, ?_, h1.symm, ?_⟩
        · simp
        · simpa using hmem

/-- C3: once the underlying package write has succeeded, `Write` removes
exactly the previously-tracked relative paths absent from the path
annotations of the written nodes, each removal targeting that path joined
under `PackagePath`; on success the filesystem is the written one minus
exactly those joined paths; the first removal failure aborts `Write` with
that error, and the earlier removals are not rolled back. -/
theorem localPackageReadWriter_write_deletes_stale_files
    (r : LocalPackageReadWriter) (pw : PkgWriter) (nodes : List YNode)
    (fs fs2 : Fs)
    (hpw : pw r.packagePath (r.setAnnotations.map Prod.fst)
      r.keepReaderAnnotations nodes fs = (fs2, none)) :
    (r.Write pw nodes fs).2 =
      removeLoop r.packagePath fs2
        (diffS r.files (LocalPackageReadWriter.getFiles nodes)) ∧
    ((r.Write pw nodes fs).2.2 = none →
      (r.Write pw nodes fs).2.1 = fs2.filter (fun p => decide (p ∉
        (diffS r.files (LocalPackageReadWriter.getFiles nodes)).map
          (joinPath r.packagePath)))) ∧
    (∀ e, (r.Write pw nodes fs).2.2 = some e →
      ∃ pre f post,
        diffS r.files (LocalPackageReadWriter.getFiles nodes) =
          pre ++ f :: post ∧
        (r.Write pw nodes fs).2.1 =
          fs2.filter (fun p => decide (p ∉ pre.map (joinPath r.packagePath))) ∧
        e = "remove " ++ joinPath r.packagePath f ++
          ": no such file or directory" ∧
        joinPath r.packagePath f ∉
          fs2.filter (fun p =>
            decide (p ∉ pre.map (joinPath r.packagePath)))) := by
  have hmain : (r.Write pw nodes fs).2 =
      removeLoop r.packagePath fs2
        (diffS r.files (LocalPackageReadWriter.getFiles nodes)) := by
    rw [LocalPackageReadWriter.Write, hpw]
  refine ⟨hmain, ?_, ?_⟩
  · intro hnone
    rw [hmain] at hnone ⊢
    have h1 := congrArg Prod.fst hmain
    exact removeLoop_ok r.packagePath _ fs2 hnone
  · intro e he
    rw [hmain] at he ⊢
    exact removeLoop_err r.packagePath _ fs2 e he

/-- Witness for C3 at concrete inputs: tracked set `[a.yaml]`, written node
carrying path `b.yaml`, package path `pkg`, filesystem containing
`pkg/a.yaml` and `pkg/b.yaml`. -/
theorem localPackageReadWriter_write_deletes_stale_files_witness :
    (LocalPackageReadWriter.Write rwSample pwOk [nodeB]
        ["pkg/a.yaml", "pkg/b.yaml"]).2 =
      removeLoop rwSample.packagePath ["pkg/a.yaml", "pkg/b.yaml"]
        (diffS rwSample.files (LocalPackageReadWriter.getFiles [nodeB])) ∧
    ((LocalPackageReadWriter.Write rwSample pwOk [nodeB]
        ["pkg/a.yaml", "pkg/b.yaml"]).2.2 = none →
      (LocalPackageReadWriter.Write rwSample pwOk [nodeB]
        ["pkg/a.yaml", "pkg/b.yaml"]).2.1 =
        ["pkg/a.yaml", "pkg/b.yaml"].filter (fun p => decide (p ∉
          (diffS rwSample.files
            (LocalPackageReadWriter.getFiles [nodeB])).map
              (joinPath rwSample.packagePath)))) ∧
    (∀ e, (LocalPackageReadWriter.Write rwSample pwOk [nodeB]
        ["pkg/a.yaml", "pkg/b.yaml"]).2.2 = some e →
      ∃ pre f post,
        diffS rwSample.files (LocalPackageReadWriter.getFiles [nodeB]) =
          pre ++ f :: post ∧
        (LocalPackageReadWriter.Write rwSample pwOk [nodeB]
          ["pkg/a.yaml", "pkg/b.yaml"]).2.1 =
          ["pkg/a.yaml", "pkg/b.yaml"].filter (fun p =>
            decide (p ∉ pre.map (joinPath rwSample.packagePath))) ∧
        e = "remove " ++ joinPath rwSample.packagePath f ++
          ": no such file or directory" ∧
        joinPath rwSample.packagePath f ∉
          ["pkg/a.yaml", "pkg/b.yaml"].filter (fun p =>
            decide (p ∉ pre.map (joinPath rwSample.packagePath)))) :=
  localPackageReadWriter_write_deletes_stale_files rwSample pwOk [nodeB]
    ["pkg/a.yaml", "pkg/b.yaml"] ["pkg/a.yaml", "pkg/b.yaml"] rfl

end KyamlSpec
